import Mathlib

/-!
Verification of the document translation job pipeline of lmsilo-translate.

The repository snapshot contains the frontend (`frontend/src/components/DocumentUpload.tsx`,
pages, API client) together with the API reference and user guide; the backend pipeline
(extractor, classifier, translation driver, checkpoint store, job state machine, output
assembler) is described by the design document but its implementation files are not part
of the snapshot.  The backend components are therefore modelled from the design document,
while every frontend-visible fact (status names, progress-bar condition, download
condition) is embedded directly from `DocumentUpload.tsx`.
-/

namespace LmsiloTranslate

/-- Per-block outcome, from the data model: enum {pending, skipped, translated, failed}. -/
inductive Outcome where
  | pending
  | skipped
  | translated
  | failed
deriving DecidableEq

/-- Job status.  The six values follow the keys of `statusColors` in
`DocumentUpload.tsx` (pending, extracting, detecting, translating, completed, failed);
the design document calls the third stage `classifying`, the code calls it `detecting`. -/
inductive Status where
  | pending
  | extracting
  | detecting
  | translating
  | completed
  | failed
deriving DecidableEq

/-- The string shown for each status in the frontend; these are exactly the keys of
`statusColors` in `DocumentUpload.tsx`. -/
def statusName : Status → String
  | Status.pending => "pending"
  | Status.extracting => "extracting"
  | Status.detecting => "detecting"
  | Status.translating => "translating"
  | Status.completed => "completed"
  | Status.failed => "failed"

/-- The keys of the `statusColors` record in `DocumentUpload.tsx` (lines 24-31). -/
def statusColorKeys : List String :=
  ["pending", "extracting", "detecting", "translating", "completed", "failed"]

/-- The status list guarding the progress bar in `DocumentUpload.tsx` (line 225):
`['extracting', 'detecting', 'translating'].includes(doc.status)`. -/
def progressStatuses : List String :=
  ["extracting", "detecting", "translating"]

/-- Embedded from `DocumentUpload.tsx` line 225: the per-job progress indicator is
rendered exactly when the status list `progressStatuses` contains the job's status. -/
def showProgressIndicator (status : String) : Bool :=
  progressStatuses.contains status

/-- Embedded from `DocumentUpload.tsx` line 206 / 469: the download button is rendered
exactly when `doc.status === 'completed'`. -/
def showDownloadButton (status : String) : Bool :=
  status == "completed"

/-- One extractable unit of text, addressed by its zero-based index within the job.
`detected` is the classifier's label (`none` = unknown / not classified). -/
structure Block where
  rawText : String
  detected : Option String
deriving DecidableEq

/-- Modelled from the spec: the engine response for one call attempt.  The translation
engine is external; a call can succeed, time out, fail transiently (retryable) or fail
on malformed input (not retryable). -/
inductive EngineResp where
  | ok (t : String)
  | timeout
  | transient
  | malformed
deriving DecidableEq

/-- Modelled from the spec (§4.3 retry policy): a bounded number of immediate retries
(up to 2) for transient engine errors before marking the block failed. -/
def retryLimit : Nat := 2

/-- Modelled from the spec: one pipeline input.  `extract` is the all-or-nothing result
of the block extractor (the extractor itself is format-specific and external to this
model); `target` is the job's target language; `engine i a` is the engine's response to
attempt `a` on block `i`. -/
structure JobInput where
  extract : Except String (List Block)
  target : String
  engine : Nat → Nat → EngineResp

/-- Modelled from the spec: drive one engine call with bounded retries.  Returns the
translated text (or `none` after the retry budget is exhausted or on a non-retryable
error) together with the number of engine calls issued. -/
def tryCallCount (resp : Nat → EngineResp) : Nat → Nat → Option String × Nat
  | 0, a =>
    match resp a with
    | EngineResp.ok t => (some t, 1)
    | _ => (none, 1)
  | fuel + 1, a =>
    match resp a with
    | EngineResp.ok t => (some t, 1)
    | EngineResp.malformed => (none, 1)
    | _ =>
      let r := tryCallCount resp fuel (a + 1)
      (r.1, r.2 + 1)

/-- The block used when an index is (provably never) out of range. -/
def defaultBlock : Block := ⟨"", none⟩

/-- The block at index `i`. -/
def blockAt (blocks : List Block) (i : Nat) : Block :=
  blocks.getD i defaultBlock

/-- Modelled from the spec (§4.2, §4.3): resolve one block.  A block whose detected
language equals the target language is skipped without any engine call; otherwise the
engine is called with bounded retries, yielding `translated` on success and the
non-fatal `failed` outcome otherwise.  Returns the resolution together with the number
of engine calls made for the block. -/
def processBlock (inp : JobInput) (i : Nat) (b : Block) : (Outcome × Option String) × Nat :=
  if b.detected = some inp.target then ((Outcome.skipped, none), 0)
  else
    let r := tryCallCount (inp.engine i) retryLimit 0
    match r.1 with
    | some t => ((Outcome.translated, some t), r.2)
    | none => ((Outcome.failed, none), r.2)

/-- The resolution (outcome and translated text) of block `i`. -/
def outcomeAt (inp : JobInput) (blocks : List Block) (i : Nat) : Outcome × Option String :=
  (processBlock inp i (blockAt blocks i)).1

/-- The number of engine calls issued for block `i`. -/
def callsAt (inp : JobInput) (blocks : List Block) (i : Nat) : Nat :=
  (processBlock inp i (blockAt blocks i)).2

/-- Modelled from the spec (§4.4): the checkpoint store for one job, one record per
block index. -/
abbrev Checkpoint := List (Nat × Outcome × Option String)

/-- Modelled from the spec (§4.4): `put(job_id, block_index, outcome, text)` upserts by
index; writing the same index twice with the same data is a no-op. -/
def put (cp : Checkpoint) (i : Nat) (v : Outcome × Option String) : Checkpoint :=
  match cp.lookup i with
  | some w => if w = v then cp else cp.map (fun e => if e.1 = i then (i, v) else e)
  | none => cp ++ [(i, v)]

/-- Modelled from the spec: the job state visible on the status surface.  Counters are
derived from `outcomes` below. -/
structure JobState where
  status : Status
  total_blocks : Option Nat
  outcomes : List (Outcome × Option String)
  checkpoint : Checkpoint
  error : Option String
deriving DecidableEq

/-- Number of blocks whose outcome is `o`. -/
def countOutcome (o : Outcome) (st : JobState) : Nat :=
  st.outcomes.countP (fun p => decide (p.1 = o))

/-- Derived counter: blocks resolved so far (outcome no longer `pending`). -/
def processed_blocks (st : JobState) : Nat :=
  st.outcomes.countP (fun p => !(decide (p.1 = Outcome.pending)))

/-- Derived counter: blocks skipped. -/
def blocks_skipped (st : JobState) : Nat :=
  countOutcome Outcome.skipped st

/-- Derived counter: blocks translated. -/
def blocks_translated (st : JobState) : Nat :=
  countOutcome Outcome.translated st

/-- Derived counter: blocks that failed non-fatally. -/
def blocks_failed (st : JobState) : Nat :=
  countOutcome Outcome.failed st

/-- `total_blocks` as a number (0 while unset). -/
def totalN (st : JobState) : Nat :=
  st.total_blocks.getD 0

/-- Modelled from the spec (§4.5): progress is `processed_blocks / total_blocks * 100`,
truncated; it is computed only once `total_blocks` is set. -/
def progress (st : JobState) : Option Nat :=
  st.total_blocks.map (fun t => processed_blocks st * 100 / t)

/-- Progress as a number (0 while undefined). -/
def progressN (st : JobState) : Nat :=
  (progress st).getD 0

/-- Modelled from the spec: a job starts in `pending` with nothing recorded. -/
def initState : JobState :=
  ⟨Status.pending, none, [], [], none⟩

/-- Modelled from the spec: the job while extraction runs; nothing recorded yet. -/
def extractingState : JobState :=
  ⟨Status.extracting, none, [], [], none⟩

/-- Modelled from the spec (§4.1, §7): extraction failure aborts the job immediately;
`total_blocks` is never set and no checkpoint is created. -/
def failedState (e : String) : JobState :=
  ⟨Status.failed, none, [], [], some e⟩

/-- All blocks unresolved. -/
def pendingOutcomes (n : Nat) : List (Outcome × Option String) :=
  (List.range n).map (fun _ => (Outcome.pending, none))

/-- Modelled from the spec: on extraction success, `total_blocks` is set exactly once
and the job enters the classification stage (`detecting` in the code's naming). -/
def detectingState (blocks : List Block) : JobState :=
  ⟨Status.detecting, some blocks.length, pendingOutcomes blocks.length, [], none⟩

/-- Modelled from the spec: the job entering the translation loop. -/
def startTranslating (blocks : List Block) : JobState :=
  ⟨Status.translating, some blocks.length, pendingOutcomes blocks.length, [], none⟩

/-- Modelled from the spec (§4.3): resolve block `i` and perform the checkpoint write
for it before moving on. -/
def applyBlock (inp : JobInput) (blocks : List Block) (st : JobState) (i : Nat) : JobState :=
  let r := outcomeAt inp blocks i
  { st with
    outcomes := st.outcomes.set i r
    checkpoint := put st.checkpoint i r }

/-- Resolve the listed blocks in order. -/
def applyBlocks (inp : JobInput) (blocks : List Block) (st : JobState) (is : List Nat) : JobState :=
  is.foldl (applyBlock inp blocks) st

/-- The job state after the translation loop has resolved blocks `0..k-1` in index
order (the uninterrupted run). -/
def loopState (inp : JobInput) (blocks : List Block) (k : Nat) : JobState :=
  applyBlocks inp blocks (startTranslating blocks) (List.range k)

/-- Modelled from the spec (§4.5): once all blocks are resolved the job is `completed`
(non-fatal block failures do not prevent this). -/
def completedState (inp : JobInput) (blocks : List Block) : JobState :=
  { loopState inp blocks blocks.length with status := Status.completed }

/-- The terminal state of an uninterrupted run. -/
def finalState (inp : JobInput) : JobState :=
  match inp.extract with
  | Except.error e => failedState e
  | Except.ok blocks => completedState inp blocks

/-- Modelled from the spec (§4.5 lifecycle): the sequence of job states of one
uninterrupted run, from creation to the terminal state. -/
def runTrace (inp : JobInput) : List JobState :=
  [initState, extractingState] ++
    match inp.extract with
    | Except.error e => [failedState e]
    | Except.ok blocks =>
      detectingState blocks ::
        ((List.range (blocks.length + 1)).map (loopState inp blocks) ++
          [completedState inp blocks])

/-- Closed form of the per-block outcomes after `k` loop iterations. -/
def outcomesUpTo (inp : JobInput) (blocks : List Block) (k : Nat) :
    List (Outcome × Option String) :=
  (List.range blocks.length).map
    (fun i => if i < k then outcomeAt inp blocks i else (Outcome.pending, none))

/-- Closed form of the checkpoint after `k` loop iterations. -/
def checkpointUpTo (inp : JobInput) (blocks : List Block) (k : Nat) : Checkpoint :=
  (List.range k).map (fun i => (i, outcomeAt inp blocks i))

/-- Modelled from the spec (§4.4): `load` — the per-block outcomes reconstructed from
the checkpoint at resume time. -/
def restore (cp : Checkpoint) (n : Nat) : List (Outcome × Option String) :=
  (List.range n).map (fun i => (cp.lookup i).getD (Outcome.pending, none))

/-- Modelled from the spec (§4.5 resume semantics): a job found in `translating` with a
checkpoint reloads per-block outcomes and recomputes counters from them. -/
def restoreState (blocks : List Block) (cp : Checkpoint) : JobState :=
  ⟨Status.translating, some blocks.length, restore cp blocks.length, cp, none⟩

/-- Modelled from the spec (§4.5): the blocks the resumed loop still has to process —
exactly those with no checkpoint record. -/
def resumeIndices (cp : Checkpoint) (n : Nat) : List Nat :=
  (List.range n).filter (fun i => (cp.lookup i).isNone)

/-- Modelled from the spec: crash after `k` resolved blocks, then resume from the
checkpoint and run to completion. -/
def resumeFromCrash (inp : JobInput) (blocks : List Block) (k : Nat) : JobState :=
  let cp := checkpointUpTo inp blocks (min k blocks.length)
  let st := restoreState blocks cp
  { applyBlocks inp blocks st (resumeIndices cp blocks.length) with
    status := Status.completed }

/-- The sequence of job states of a run that crashes after `k` resolved blocks and is
then resumed from the checkpoint. -/
def crashResumeTrace (inp : JobInput) (blocks : List Block) (k : Nat) : List JobState :=
  let cp := checkpointUpTo inp blocks (min k blocks.length)
  let st := restoreState blocks cp
  let is := resumeIndices cp blocks.length
  [initState, extractingState, detectingState blocks] ++
    (List.range (min k blocks.length + 1)).map (loopState inp blocks) ++
    ((List.range (is.length + 1)).map (fun j => applyBlocks inp blocks st (is.take j)) ++
      [{ applyBlocks inp blocks st is with status := Status.completed }])

/-- Modelled from the spec (§4.6): rebuild the output by walking blocks in index order,
substituting `translated_text` where the outcome is `translated` and the original
`raw_text` otherwise (skipped or failed blocks keep their text; nothing is dropped). -/
def assemble (blocks : List Block) (outcomes : List (Outcome × Option String)) :
    List String :=
  (List.range blocks.length).map (fun i =>
    match outcomes.getD i (Outcome.pending, none) with
    | (Outcome.translated, some t) => t
    | _ => (blockAt blocks i).rawText)

/-- The invariant of C2, as a predicate on one job state. -/
def counterInvariant (st : JobState) : Prop :=
  processed_blocks st = blocks_skipped st + blocks_translated st + blocks_failed st ∧
  processed_blocks st ≤ totalN st ∧
  (st.status = Status.completed →
    processed_blocks st = totalN st ∧
    blocks_skipped st + blocks_translated st + blocks_failed st = totalN st)

/-- A state in which progress is queried: the document list renders the per-job
progress indicator for its status (`DocumentUpload.tsx` line 225 — this includes
`extracting`), or the job is `completed`, whose status snapshot also reports final
progress. -/
def progressQueried (st : JobState) : Prop :=
  showProgressIndicator (statusName st.status) = true ∨ st.status = Status.completed

/-- The property of the amended C8, as a predicate on one job state: in every state
whose progress is queried, either `total_blocks` is set and progress is the truncated
percentage `processed_blocks * 100 / total_blocks`, or the job is still `extracting`,
where the indicator is already rendered although `total_blocks` is not yet set and
progress is undefined. -/
def progressReported (st : JobState) : Prop :=
  progressQueried st →
    (∃ t, st.total_blocks = some t ∧
        progress st = some (processed_blocks st * 100 / t)) ∨
    (st.status = Status.extracting ∧ st.total_blocks = none ∧ progress st = none)

/-- Pointwise order on the derived counters and progress of two job states. -/
def countersLe (s s' : JobState) : Prop :=
  totalN s ≤ totalN s' ∧
  processed_blocks s ≤ processed_blocks s' ∧
  blocks_skipped s ≤ blocks_skipped s' ∧
  blocks_translated s ≤ blocks_translated s' ∧
  blocks_failed s ≤ blocks_failed s' ∧
  progressN s ≤ progressN s'

/-- The status transition relation of the job state machine: a step either keeps the
status or follows one of the lifecycle edges (with `detecting` as the post-extraction
stage, as in the code). -/
def allowedTransition (s s' : Status) : Prop :=
  s = s' ∨
    (s = Status.pending ∧ s' = Status.extracting) ∨
    (s = Status.extracting ∧ s' = Status.detecting) ∨
    (s = Status.detecting ∧ s' = Status.translating) ∨
    (s = Status.translating ∧ s' = Status.completed) ∨
    (s = Status.extracting ∧ s' = Status.failed) ∨
    (s = Status.translating ∧ s' = Status.failed)

/-- Lift of `allowedTransition` to job states. -/
def statusStep (st st' : JobState) : Prop :=
  allowedTransition st.status st'.status

/-- The status names claim C7 asserts (with `classifying`). -/
def claimedStatusNames : List String :=
  ["pending", "extracting", "classifying", "translating", "completed", "failed"]

/-! ### Concrete sample data used by the witness theorems -/

/-- A concrete three-block document: block 0 needs translation and succeeds, block 1 is
already in the target language, block 2 fails after its retries are exhausted. -/
def sampleBlocks : List Block :=
  [⟨"hola", some "spa_Latn"⟩, ⟨"hello", some "eng_Latn"⟩, ⟨"bonjour", some "fra_Latn"⟩]

/-- A concrete engine: translates every block except block 2, which errors transiently
once and then permanently. -/
def sampleEngine : Nat → Nat → EngineResp := fun i a =>
  if i = 2 then (if a = 0 then EngineResp.transient else EngineResp.malformed)
  else EngineResp.ok "translated"

/-- A concrete job whose extraction succeeds. -/
def sampleInput : JobInput :=
  ⟨Except.ok sampleBlocks, "eng_Latn", sampleEngine⟩

/-- A concrete job whose extraction fails. -/
def sampleFailedInput : JobInput :=
  ⟨Except.error "corrupt file", "eng_Latn", sampleEngine⟩

/-! ### Basic lemmas about the building blocks -/

theorem lookup_range_map {α : Type} (f : Nat → α) (m j : Nat) :
    ((List.range m).map (fun i => (i, f i))).lookup j =
      if j < m then some (f j) else none := by
  induction m with
  | zero => simp
  | succ m ih =>
    rw [List.range_succ, List.map_append, List.lookup_append, ih]
    by_cases hj : j < m
    · simp [hj, Nat.lt_succ_of_lt hj]
    · by_cases hjm : j = m
      · subst hjm
        simp [List.lookup]
      · have hj1 : ¬ j < m + 1 := by omega
        have hbeq : (j == m) = false := by simpa using hjm
        simp [hj, hj1, List.lookup, hbeq]

theorem lookup_checkpointUpTo (inp : JobInput) (blocks : List Block) (k j : Nat) :
    (checkpointUpTo inp blocks k).lookup j =
      if j < k then some (outcomeAt inp blocks j) else none :=
  lookup_range_map _ k j

/-- `put` is idempotent: writing the same index twice with the same data is a no-op. -/
theorem put_idem (cp : Checkpoint) (i : Nat) (v : Outcome × Option String) :
    put (put cp i v) i v = put cp i v := by
  unfold put
  cases h : cp.lookup i with
  | none =>
    simp only [h]
    rw [List.lookup_append, h]
    simp [List.lookup]
  | some w =>
    by_cases hwv : w = v
    · subst hwv
      simp [h]
    · simp only [h, if_neg hwv]
      have hl : ∀ l : Checkpoint, l.lookup i = some w →
          (l.map (fun e => if e.1 = i then (i, v) else e)).lookup i = some v := by
        intro l
        induction l with
        | nil => intro hn; simp at hn
        | cons p t iht =>
          obtain ⟨pk, pv⟩ := p
          intro hc
          by_cases hp : pk = i
          · subst hp
            simp [List.lookup_cons]
          · have hbeq : (i == pk) = false := by
              simpa using fun he => hp he.symm
            rw [List.lookup_cons, hbeq] at hc
            simp only [List.map_cons, if_neg hp, List.lookup_cons, hbeq]
            exact iht hc
      simp [hl cp h]

theorem take_range' (s m j : Nat) : (List.range' s m).take j = List.range' s (min j m) := by
  induction m generalizing s j with
  | zero => simp
  | succ m ih =>
    rw [List.range'_succ]
    cases j with
    | zero => simp
    | succ j =>
      rw [List.take_succ_cons, ih (s + 1) j, Nat.succ_min_succ, List.range'_succ]

theorem restore_checkpointUpTo (inp : JobInput) (blocks : List Block) (k : Nat) :
    restore (checkpointUpTo inp blocks k) blocks.length = outcomesUpTo inp blocks k := by
  unfold restore outcomesUpTo
  refine List.map_congr_left (fun i _ => ?_)
  rw [lookup_checkpointUpTo]
  by_cases hi : i < k <;> simp [hi]

theorem resumeIndices_checkpointUpTo (inp : JobInput) (blocks : List Block) (k : Nat) :
    resumeIndices (checkpointUpTo inp blocks k) blocks.length =
      List.range' k (blocks.length - k) := by
  unfold resumeIndices
  have hc : ∀ i ∈ List.range blocks.length,
      ((checkpointUpTo inp blocks k).lookup i).isNone = decide (k ≤ i) := by
    intro i _
    rw [lookup_checkpointUpTo]
    by_cases hi : i < k <;> simp [hi] <;> omega
  rw [List.filter_congr hc]
  generalize blocks.length = n
  induction n with
  | zero => simp
  | succ n ih =>
    rw [List.range_succ, List.filter_append, ih]
    by_cases hk : k ≤ n
    · have h1 : n + 1 - k = (n - k) + 1 := by omega
      rw [h1, List.range'_1_concat]
      have h2 : k + (n - k) = n := by omega
      simp [hk, h2]
    · have h1 : n + 1 - k = 0 := by omega
      have h2 : n - k = 0 := by omega
      simp [h1, h2, hk]

theorem applyBlocks_status (inp : JobInput) (blocks : List Block) (st : JobState)
    (is : List Nat) : (applyBlocks inp blocks st is).status = st.status := by
  induction is generalizing st with
  | nil => rfl
  | cons i t ih => simpa [applyBlocks, List.foldl_cons, applyBlock] using ih _

theorem applyBlocks_total (inp : JobInput) (blocks : List Block) (st : JobState)
    (is : List Nat) : (applyBlocks inp blocks st is).total_blocks = st.total_blocks := by
  induction is generalizing st with
  | nil => rfl
  | cons i t ih => simpa [applyBlocks, List.foldl_cons, applyBlock] using ih _

theorem applyBlocks_error (inp : JobInput) (blocks : List Block) (st : JobState)
    (is : List Nat) : (applyBlocks inp blocks st is).error = st.error := by
  induction is generalizing st with
  | nil => rfl
  | cons i t ih => simpa [applyBlocks, List.foldl_cons, applyBlock] using ih _

theorem outcomesUpTo_zero (inp : JobInput) (blocks : List Block) :
    outcomesUpTo inp blocks 0 = pendingOutcomes blocks.length := by
  unfold outcomesUpTo pendingOutcomes
  exact List.map_congr_left (fun i _ => by simp)

theorem outcomesUpTo_length (inp : JobInput) (blocks : List Block) (k : Nat) :
    (outcomesUpTo inp blocks k).length = blocks.length := by
  simp [outcomesUpTo]

theorem outcomesUpTo_set (inp : JobInput) (blocks : List Block) (k : Nat)
    (hk : k < blocks.length) :
    (outcomesUpTo inp blocks k).set k (outcomeAt inp blocks k) =
      outcomesUpTo inp blocks (k + 1) := by
  apply List.ext_getElem
  · simp [outcomesUpTo]
  · intro i h1 h2
    have hi : i < blocks.length := by simpa [outcomesUpTo] using h2
    rw [List.getElem_set]
    by_cases hik : k = i
    · subst hik
      simp [outcomesUpTo, hi]
    · simp only [if_neg hik, outcomesUpTo, List.getElem_map, List.getElem_range]
      by_cases hlt : i < k
      · simp [hlt, Nat.lt_succ_of_lt hlt]
      · have : ¬ i < k + 1 := by omega
        simp [hlt, this]

theorem checkpointUpTo_succ (inp : JobInput) (blocks : List Block) (k : Nat) :
    checkpointUpTo inp blocks (k + 1) =
      checkpointUpTo inp blocks k ++ [(k, outcomeAt inp blocks k)] := by
  unfold checkpointUpTo
  rw [List.range_succ, List.map_append]
  rfl

theorem loopState_eq (inp : JobInput) (blocks : List Block) (k : Nat)
    (hk : k ≤ blocks.length) :
    loopState inp blocks k =
      ⟨Status.translating, some blocks.length, outcomesUpTo inp blocks k,
        checkpointUpTo inp blocks k, none⟩ := by
  induction k with
  | zero =>
    unfold loopState applyBlocks
    simp [startTranslating, outcomesUpTo_zero, checkpointUpTo]
  | succ k ih =>
    have hk' : k ≤ blocks.length := Nat.le_of_succ_le hk
    have hkl : k < blocks.length := hk
    unfold loopState applyBlocks
    rw [List.range_succ, List.foldl_append]
    have hprev : List.foldl (applyBlock inp blocks) (startTranslating blocks)
        (List.range k) =
        ⟨Status.translating, some blocks.length, outcomesUpTo inp blocks k,
          checkpointUpTo inp blocks k, none⟩ := ih hk'
    rw [hprev]
    simp only [List.foldl_cons, List.foldl_nil, applyBlock]
    rw [checkpointUpTo_succ]
    have hput : put (checkpointUpTo inp blocks k) k (outcomeAt inp blocks k) =
        checkpointUpTo inp blocks k ++ [(k, outcomeAt inp blocks k)] := by
      unfold put
      rw [lookup_checkpointUpTo]
      simp
    simp [hput, outcomesUpTo_set inp blocks k hkl]

theorem applyBlocks_loopState (inp : JobInput) (blocks : List Block) (k m : Nat) :
    applyBlocks inp blocks (loopState inp blocks k) (List.range' k m) =
      loopState inp blocks (k + m) := by
  unfold loopState applyBlocks
  rw [← List.foldl_append]
  congr 1
  rw [List.range_eq_range', List.range_eq_range']
  have := List.range'_append_1 0 k m
  simpa [Nat.add_comm m k] using this

theorem restoreState_eq (inp : JobInput) (blocks : List Block) (k : Nat)
    (hk : k ≤ blocks.length) :
    restoreState blocks (checkpointUpTo inp blocks k) = loopState inp blocks k := by
  rw [loopState_eq inp blocks k hk]
  unfold restoreState
  rw [restore_checkpointUpTo]

/-! ### Facts about block resolution -/

theorem outcomeAt_ne_pending (inp : JobInput) (blocks : List Block) (i : Nat) :
    (outcomeAt inp blocks i).1 ≠ Outcome.pending := by
  unfold outcomeAt processBlock
  by_cases h : (blockAt blocks i).detected = some inp.target
  · simp [h]
  · simp only [if_neg h]
    cases htc : (tryCallCount (inp.engine i) retryLimit 0).1 <;> simp [htc]

theorem outcomeAt_translated_some (inp : JobInput) (blocks : List Block) (i : Nat)
    (h : (outcomeAt inp blocks i).1 = Outcome.translated) :
    ∃ t, outcomeAt inp blocks i = (Outcome.translated, some t) := by
  unfold outcomeAt processBlock at h ⊢
  by_cases hd : (blockAt blocks i).detected = some inp.target
  · simp [hd] at h
  · simp only [if_neg hd] at h ⊢
    cases htc : (tryCallCount (inp.engine i) retryLimit 0).1 with
    | none => rw [htc] at h; simp at h
    | some t => exact ⟨t, by simp⟩

theorem outcomeAt_skip (inp : JobInput) (blocks : List Block) (i : Nat)
    (h : (blockAt blocks i).detected = some inp.target) :
    outcomeAt inp blocks i = (Outcome.skipped, none) ∧ callsAt inp blocks i = 0 := by
  unfold outcomeAt callsAt processBlock
  simp [h]

theorem tryCallCount_none_of_never_ok (resp : Nat → EngineResp)
    (hfail : ∀ a t, resp a ≠ EngineResp.ok t) :
    ∀ fuel a, (tryCallCount resp fuel a).1 = none := by
  intro fuel
  induction fuel with
  | zero =>
    intro a
    cases hr : resp a with
    | ok t => exact absurd hr (hfail a t)
    | timeout => simp [tryCallCount, hr]
    | transient => simp [tryCallCount, hr]
    | malformed => simp [tryCallCount, hr]
  | succ fuel ih =>
    intro a
    cases hr : resp a with
    | ok t => exact absurd hr (hfail a t)
    | timeout => simpa [tryCallCount, hr] using ih (a + 1)
    | transient => simpa [tryCallCount, hr] using ih (a + 1)
    | malformed => simp [tryCallCount, hr]

theorem outcomeAt_failed_of_never_ok (inp : JobInput) (blocks : List Block) (i : Nat)
    (hd : ¬ (blockAt blocks i).detected = some inp.target)
    (hfail : ∀ a t, inp.engine i a ≠ EngineResp.ok t) :
    outcomeAt inp blocks i = (Outcome.failed, none) := by
  unfold outcomeAt processBlock
  simp only [if_neg hd]
  rw [tryCallCount_none_of_never_ok (inp.engine i) hfail retryLimit 0]

/-! ### Counting lemmas -/

theorem countP_partition (l : List (Outcome × Option String)) :
    l.countP (fun p => !(decide (p.1 = Outcome.pending))) =
      l.countP (fun p => decide (p.1 = Outcome.skipped)) +
        l.countP (fun p => decide (p.1 = Outcome.translated)) +
        l.countP (fun p => decide (p.1 = Outcome.failed)) := by
  induction l with
  | nil => simp
  | cons a t ih =>
    obtain ⟨o, s⟩ := a
    cases o <;> simp [List.countP_cons, ih] <;> omega

theorem countP_range_map_mono {α : Type} (p : α → Bool) (f g : Nat → α) (n : Nat)
    (h : ∀ i, p (f i) = true → p (g i) = true) :
    ((List.range n).map f).countP p ≤ ((List.range n).map g).countP p := by
  induction n with
  | zero => simp
  | succ n ih =>
    rw [List.range_succ, List.map_append, List.map_append, List.countP_append,
      List.countP_append]
    have h1 : ([f n]).countP p ≤ ([g n]).countP p := by
      simp only [List.countP_cons, List.countP_nil]
      by_cases hf : p (f n)
      · rw [if_pos hf, if_pos (h n hf)]
      · rw [if_neg hf]
        exact Nat.zero_le _
    exact Nat.add_le_add ih h1

theorem countP_outcomesUpTo_mono (inp : JobInput) (blocks : List Block) (k : Nat)
    (p : Outcome × Option String → Bool) (hp : p (Outcome.pending, none) = false) :
    (outcomesUpTo inp blocks k).countP p ≤ (outcomesUpTo inp blocks (k + 1)).countP p := by
  unfold outcomesUpTo
  apply countP_range_map_mono
  intro i hi
  by_cases hik : i < k
  · rw [if_pos hik] at hi
    rw [if_pos (Nat.lt_succ_of_lt hik)]
    exact hi
  · rw [if_neg hik] at hi
    rw [hp] at hi
    exact absurd hi (by simp)

theorem countP_pendingOutcomes (n : Nat) (p : Outcome × Option String → Bool)
    (hp : p (Outcome.pending, none) = false) :
    (pendingOutcomes n).countP p = 0 := by
  rw [List.countP_eq_zero]
  intro a ha
  unfold pendingOutcomes at ha
  simp only [List.mem_map, List.mem_range] at ha
  obtain ⟨i, _, rfl⟩ := ha
  simp [hp]

theorem processed_outcomesUpTo_full (inp : JobInput) (blocks : List Block) :
    (outcomesUpTo inp blocks blocks.length).countP
        (fun p => !(decide (p.1 = Outcome.pending))) = blocks.length := by
  have h : ∀ a ∈ outcomesUpTo inp blocks blocks.length,
      (fun p => !(decide (p.1 = Outcome.pending))) a = true := by
    intro a ha
    unfold outcomesUpTo at ha
    simp only [List.mem_map, List.mem_range] at ha
    obtain ⟨i, hi, rfl⟩ := ha
    simp [hi, outcomeAt_ne_pending inp blocks i]
  rw [List.countP_eq_length.2 h, outcomesUpTo_length]

/-! ### Chain and trace decomposition helpers -/

theorem head?_map_range_append {α : Type} (f : Nat → α) (n : Nat) (l : List α) :
    (((List.range (n + 1)).map f) ++ l).head? = some (f 0) := by
  rw [List.range_succ_eq_map]
  simp

theorem getLast?_map_range {α : Type} (f : Nat → α) (n : Nat) :
    ((List.range (n + 1)).map f).getLast? = some (f n) := by
  rw [List.range_succ, List.map_append]
  exact List.getLast?_concat _

theorem chain'_map_range {α : Type} (R : α → α → Prop) (f : Nat → α) (n : Nat)
    (h : ∀ m < n, R (f m) (f (m + 1))) :
    List.Chain' R ((List.range (n + 1)).map f) := by
  rw [List.chain'_map]
  exact (List.chain'_range_succ _ n).2 h

theorem crashResumeTrace_eq (inp : JobInput) (blocks : List Block) (k : Nat) :
    crashResumeTrace inp blocks k =
      [initState, extractingState, detectingState blocks] ++
        (List.range (min k blocks.length + 1)).map (loopState inp blocks) ++
        ((List.range (blocks.length - min k blocks.length + 1)).map
            (fun j => loopState inp blocks
              (min k blocks.length + min j (blocks.length - min k blocks.length))) ++
          [completedState inp blocks]) := by
  have hkle : min k blocks.length ≤ blocks.length := Nat.min_le_right _ _
  have hfull : min k blocks.length + (blocks.length - min k blocks.length) =
      blocks.length := by omega
  simp only [crashResumeTrace]
  rw [resumeIndices_checkpointUpTo, restoreState_eq inp blocks _ hkle, List.length_range']
  congr 1
  congr 1
  · apply List.map_congr_left
    intro j _
    rw [take_range', applyBlocks_loopState]
  · rw [applyBlocks_loopState, hfull]
    rfl

theorem loopState_status (inp : JobInput) (blocks : List Block) (m : Nat) :
    (loopState inp blocks m).status = Status.translating :=
  applyBlocks_status inp blocks (startTranslating blocks) (List.range m)

theorem loopState_total (inp : JobInput) (blocks : List Block) (m : Nat) :
    (loopState inp blocks m).total_blocks = some blocks.length :=
  applyBlocks_total inp blocks (startTranslating blocks) (List.range m)

theorem loopState_error (inp : JobInput) (blocks : List Block) (m : Nat) :
    (loopState inp blocks m).error = none :=
  applyBlocks_error inp blocks (startTranslating blocks) (List.range m)

theorem mem_runTrace (inp : JobInput) (st : JobState) (hst : st ∈ runTrace inp) :
    st = initState ∨ st = extractingState ∨
      (∃ e, inp.extract = Except.error e ∧ st = failedState e) ∨
      (∃ blocks, inp.extract = Except.ok blocks ∧
        (st = detectingState blocks ∨
          (∃ m, m ≤ blocks.length ∧ st = loopState inp blocks m) ∨
          st = completedState inp blocks)) := by
  unfold runTrace at hst
  cases hex : inp.extract with
  | error e =>
    rw [hex] at hst
    simp only [List.cons_append, List.nil_append, List.mem_cons,
      List.not_mem_nil, or_false] at hst
    rcases hst with h | h | h
    · exact Or.inl h
    · exact Or.inr (Or.inl h)
    · exact Or.inr (Or.inr (Or.inl ⟨e, rfl, h⟩))
  | ok blocks =>
    rw [hex] at hst
    simp only [List.cons_append, List.nil_append, List.mem_cons, List.mem_append,
      List.mem_map, List.mem_range, List.not_mem_nil, or_false] at hst
    rcases hst with h | h | h | ⟨m, hm, h⟩ | h
    · exact Or.inl h
    · exact Or.inr (Or.inl h)
    · exact Or.inr (Or.inr (Or.inr ⟨blocks, rfl, Or.inl h⟩))
    · exact Or.inr (Or.inr (Or.inr ⟨blocks, rfl, Or.inr (Or.inl ⟨m, by omega, h.symm⟩)⟩))
    · exact Or.inr (Or.inr (Or.inr ⟨blocks, rfl, Or.inr (Or.inr h)⟩))

theorem mem_crashResumeTrace (inp : JobInput) (blocks : List Block) (k : Nat)
    (st : JobState) (hst : st ∈ crashResumeTrace inp blocks k) :
    st = initState ∨ st = extractingState ∨ st = detectingState blocks ∨
      (∃ m, m ≤ blocks.length ∧ st = loopState inp blocks m) ∨
      st = completedState inp blocks := by
  rw [crashResumeTrace_eq] at hst
  simp only [List.cons_append, List.nil_append, List.mem_cons, List.mem_append,
    List.mem_map, List.mem_range, List.not_mem_nil, or_false] at hst
  have hkle : min k blocks.length ≤ blocks.length := Nat.min_le_right _ _
  rcases hst with h | h | h | ⟨m, hm, h⟩ | ⟨j, hj, h⟩ | h
  · exact Or.inl h
  · exact Or.inr (Or.inl h)
  · exact Or.inr (Or.inr (Or.inl h))
  · exact Or.inr (Or.inr (Or.inr (Or.inl ⟨m, by omega, h.symm⟩)))
  · refine Or.inr (Or.inr (Or.inr (Or.inl
      ⟨min k blocks.length + min j (blocks.length - min k blocks.length), by omega, h.symm⟩)))
  · exact Or.inr (Or.inr (Or.inr (Or.inr h)))

theorem outcomeAt_skipped_eq (inp : JobInput) (blocks : List Block) (i : Nat)
    (h : (outcomeAt inp blocks i).1 = Outcome.skipped) :
    outcomeAt inp blocks i = (Outcome.skipped, none) := by
  unfold outcomeAt processBlock at h ⊢
  by_cases hd : (blockAt blocks i).detected = some inp.target
  · simp [hd]
  · simp only [if_neg hd] at h ⊢
    cases htc : (tryCallCount (inp.engine i) retryLimit 0).1 with
    | none => rw [htc] at h; simp at h
    | some t => rw [htc] at h; simp at h

theorem outcomeAt_failed_eq (inp : JobInput) (blocks : List Block) (i : Nat)
    (h : (outcomeAt inp blocks i).1 = Outcome.failed) :
    outcomeAt inp blocks i = (Outcome.failed, none) := by
  unfold outcomeAt processBlock at h ⊢
  by_cases hd : (blockAt blocks i).detected = some inp.target
  · simp [hd] at h
  · simp only [if_neg hd] at h ⊢
    cases htc : (tryCallCount (inp.engine i) retryLimit 0).1 with
    | none => simp
    | some t => rw [htc] at h; simp at h

theorem completedState_outcomes (inp : JobInput) (blocks : List Block) :
    (completedState inp blocks).outcomes = outcomesUpTo inp blocks blocks.length := by
  show (loopState inp blocks blocks.length).outcomes = _
  rw [loopState_eq inp blocks blocks.length (Nat.le_refl _)]

theorem completedState_total (inp : JobInput) (blocks : List Block) :
    (completedState inp blocks).total_blocks = some blocks.length :=
  loopState_total inp blocks blocks.length

theorem outcomesUpTo_full_getElem (inp : JobInput) (blocks : List Block) (i : Nat)
    (hi : i < blocks.length) :
    (outcomesUpTo inp blocks blocks.length)[i]? = some (outcomeAt inp blocks i) := by
  unfold outcomesUpTo
  rw [List.getElem?_map, List.getElem?_range hi]
  simp [hi]

theorem assemble_length (blocks : List Block) (outcomes : List (Outcome × Option String)) :
    (assemble blocks outcomes).length = blocks.length := by
  simp [assemble]

theorem assemble_getElem (blocks : List Block) (outcomes : List (Outcome × Option String))
    (i : Nat) (hi : i < blocks.length) :
    (assemble blocks outcomes)[i]? =
      some (match outcomes.getD i (Outcome.pending, none) with
        | (Outcome.translated, some t) => t
        | _ => (blockAt blocks i).rawText) := by
  unfold assemble
  rw [List.getElem?_map, List.getElem?_range hi]
  rfl

/-! ### Claims -/

/-- C6: extraction is all-or-nothing — if extraction fails the job immediately becomes
`failed` with the extraction reason as its error, `total_blocks` is never set, no
checkpoint record is created, and no partially extracted block list is ever produced. -/
theorem c6_extraction_all_or_nothing (inp : JobInput) (e : String)
    (h : inp.extract = Except.error e) :
    finalState inp = failedState e ∧
    (finalState inp).status = Status.failed ∧
    (finalState inp).error = some e ∧
    (∀ st ∈ runTrace inp,
      st.total_blocks = none ∧ st.checkpoint = [] ∧ st.outcomes = []) := by
  have hf : finalState inp = failedState e := by
    unfold finalState
    rw [h]
  refine ⟨hf, by rw [hf]; rfl, by rw [hf]; rfl, ?_⟩
  intro st hst
  unfold runTrace at hst
  rw [h] at hst
  simp only [List.cons_append, List.nil_append, List.mem_cons,
    List.not_mem_nil, or_false] at hst
  rcases hst with rfl | rfl | rfl <;> exact ⟨rfl, rfl, rfl⟩

/-- Witness for C6 at the concrete corrupt-file job. -/
theorem c6_witness :
    finalState sampleFailedInput = failedState "corrupt file" ∧
    (finalState sampleFailedInput).status = Status.failed ∧
    (finalState sampleFailedInput).error = some "corrupt file" ∧
    (∀ st ∈ runTrace sampleFailedInput,
      st.total_blocks = none ∧ st.checkpoint = [] ∧ st.outcomes = []) :=
  c6_extraction_all_or_nothing sampleFailedInput "corrupt file" rfl

/-- C10: in the document list the per-job progress indicator is rendered exactly when
the job's status is `extracting`, `detecting` or `translating`; in particular it is not
shown for `pending`, `completed` or `failed` jobs (`DocumentUpload.tsx` line 225). -/
theorem c10_progress_indicator_iff :
    (∀ s : String, showProgressIndicator s = true ↔
      (s = "extracting" ∨ s = "detecting" ∨ s = "translating")) ∧
    showProgressIndicator "pending" = false ∧
    showProgressIndicator "completed" = false ∧
    showProgressIndicator "failed" = false := by
  refine ⟨?_, by decide, by decide, by decide⟩
  intro s
  simp [showProgressIndicator, progressStatuses]

/-- C4: a block whose detected language equals the job's target language is marked
`skipped`, the translation engine is never called for it (zero engine calls), and it
still appears in the final output with its text unmodified. -/
theorem c4_skip_correctness (inp : JobInput) (blocks : List Block)
    (h : inp.extract = Except.ok blocks) (i : Nat) (hi : i < blocks.length)
    (hd : (blockAt blocks i).detected = some inp.target) :
    outcomeAt inp blocks i = (Outcome.skipped, none) ∧
    callsAt inp blocks i = 0 ∧
    (finalState inp).outcomes[i]? = some (Outcome.skipped, none) ∧
    (assemble blocks (finalState inp).outcomes)[i]? =
      some (blockAt blocks i).rawText := by
  obtain ⟨ho, hc⟩ := outcomeAt_skip inp blocks i hd
  have hfin : finalState inp = completedState inp blocks := by
    unfold finalState
    rw [h]
  have hout : (finalState inp).outcomes[i]? = some (Outcome.skipped, none) := by
    rw [hfin, completedState_outcomes, outcomesUpTo_full_getElem inp blocks i hi, ho]
  refine ⟨ho, hc, hout, ?_⟩
  rw [hfin] at hout ⊢
  rw [assemble_getElem blocks _ i hi]
  simp [hout]

/-- Witness for C4: in the sample job, block 1 is already in the target language. -/
theorem c4_witness :
    outcomeAt sampleInput sampleBlocks 1 = (Outcome.skipped, none) ∧
    callsAt sampleInput sampleBlocks 1 = 0 ∧
    (finalState sampleInput).outcomes[1]? = some (Outcome.skipped, none) ∧
    (assemble sampleBlocks (finalState sampleInput).outcomes)[1]? =
      some (blockAt sampleBlocks 1).rawText :=
  c4_skip_correctness sampleInput sampleBlocks rfl 1 (by decide) (by decide)

/-- C3: a per-block translation failure (engine never succeeds, retries exhausted)
leaves that block `failed` while the job still reaches `completed` with the block's
original text in the output; a job's terminal status is `failed` exactly when
extraction itself failed. -/
theorem c3_nonfatal_block_failure (inp : JobInput) (blocks : List Block)
    (h : inp.extract = Except.ok blocks) (i : Nat) (hi : i < blocks.length)
    (hd : ¬ (blockAt blocks i).detected = some inp.target)
    (hfail : ∀ a t, inp.engine i a ≠ EngineResp.ok t) :
    (finalState inp).status = Status.completed ∧
    (finalState inp).outcomes[i]? = some (Outcome.failed, none) ∧
    (assemble blocks (finalState inp).outcomes)[i]? =
      some (blockAt blocks i).rawText ∧
    (∀ inp' : JobInput,
      (finalState inp').status = Status.failed ↔ ∃ e, inp'.extract = Except.error e) := by
  have hfin : finalState inp = completedState inp blocks := by
    unfold finalState
    rw [h]
  have ho : outcomeAt inp blocks i = (Outcome.failed, none) :=
    outcomeAt_failed_of_never_ok inp blocks i hd hfail
  have hout : (finalState inp).outcomes[i]? = some (Outcome.failed, none) := by
    rw [hfin, completedState_outcomes, outcomesUpTo_full_getElem inp blocks i hi, ho]
  refine ⟨by rw [hfin]; rfl, hout, ?_, ?_⟩
  · rw [hfin] at hout ⊢
    rw [assemble_getElem blocks _ i hi]
    simp [hout]
  · intro inp'
    unfold finalState
    cases hex : inp'.extract with
    | error e => simp [failedState, hex]
    | ok bs =>
      constructor
      · intro hs
        exact absurd hs (by simp [completedState])
      · rintro ⟨e, he⟩
        cases he

/-- Witness for C3: in the sample job, block 2's engine calls never succeed. -/
theorem c3_witness :
    (finalState sampleInput).status = Status.completed ∧
    (finalState sampleInput).outcomes[2]? = some (Outcome.failed, none) ∧
    (assemble sampleBlocks (finalState sampleInput).outcomes)[2]? =
      some (blockAt sampleBlocks 2).rawText ∧
    (∀ inp' : JobInput,
      (finalState inp').status = Status.failed ↔ ∃ e, inp'.extract = Except.error e) :=
  c3_nonfatal_block_failure sampleInput sampleBlocks rfl 2 (by decide) (by decide)
    (by
      intro a t
      unfold sampleInput sampleEngine
      by_cases ha : a = 0 <;> simp [ha])

/-- C5: for a job whose extraction succeeded, the run terminates in `completed` and the
assembled output has exactly `total_blocks` entries in index order — the translated
text for `translated` blocks and the original raw text for `skipped` or `failed`
blocks, so no block is dropped; the frontend offers the download exactly for
`completed` jobs. -/
theorem c5_output_fidelity (inp : JobInput) (blocks : List Block)
    (h : inp.extract = Except.ok blocks) :
    (finalState inp).status = Status.completed ∧
    (assemble blocks (finalState inp).outcomes).length = totalN (finalState inp) ∧
    (∀ i, i < blocks.length →
      (∃ t, (finalState inp).outcomes[i]? = some (Outcome.translated, some t) ∧
          (assemble blocks (finalState inp).outcomes)[i]? = some t) ∨
      ((finalState inp).outcomes[i]? = some (Outcome.skipped, none) ∧
        (assemble blocks (finalState inp).outcomes)[i]? =
          some (blockAt blocks i).rawText) ∨
      ((finalState inp).outcomes[i]? = some (Outcome.failed, none) ∧
        (assemble blocks (finalState inp).outcomes)[i]? =
          some (blockAt blocks i).rawText)) ∧
    (∀ s : String, showDownloadButton s = true ↔ s = "completed") ∧
    showDownloadButton (statusName (finalState inp).status) = true := by
  have hfin : finalState inp = completedState inp blocks := by
    unfold finalState
    rw [h]
  have hlen : (assemble blocks (finalState inp).outcomes).length = totalN (finalState inp) := by
    rw [assemble_length, hfin, totalN, completedState_total]
    rfl
  refine ⟨by rw [hfin]; rfl, hlen, ?_, ?_, by rw [hfin]; rfl⟩
  · intro i hi
    have hout : (finalState inp).outcomes[i]? = some (outcomeAt inp blocks i) := by
      rw [hfin, completedState_outcomes, outcomesUpTo_full_getElem inp blocks i hi]
    have hasm := assemble_getElem blocks (finalState inp).outcomes i hi
    rw [List.getD_eq_getElem?_getD, hout] at hasm
    cases hoc : (outcomeAt inp blocks i).1 with
    | pending => exact absurd hoc (outcomeAt_ne_pending inp blocks i)
    | skipped =>
      have he := outcomeAt_skipped_eq inp blocks i hoc
      rw [he] at hout hasm
      exact Or.inr (Or.inl ⟨hout, by simpa using hasm⟩)
    | translated =>
      obtain ⟨t, he⟩ := outcomeAt_translated_some inp blocks i hoc
      rw [he] at hout hasm
      exact Or.inl ⟨t, hout, by simpa using hasm⟩
    | failed =>
      have he := outcomeAt_failed_eq inp blocks i hoc
      rw [he] at hout hasm
      exact Or.inr (Or.inr ⟨hout, by simpa using hasm⟩)
  · intro s
    simp [showDownloadButton]

/-- Witness for C5 at the concrete sample job. -/
theorem c5_witness :
    (finalState sampleInput).status = Status.completed ∧
    (assemble sampleBlocks (finalState sampleInput).outcomes).length =
      totalN (finalState sampleInput) ∧
    (∀ i, i < sampleBlocks.length →
      (∃ t, (finalState sampleInput).outcomes[i]? = some (Outcome.translated, some t) ∧
          (assemble sampleBlocks (finalState sampleInput).outcomes)[i]? = some t) ∨
      ((finalState sampleInput).outcomes[i]? = some (Outcome.skipped, none) ∧
        (assemble sampleBlocks (finalState sampleInput).outcomes)[i]? =
          some (blockAt sampleBlocks i).rawText) ∨
      ((finalState sampleInput).outcomes[i]? = some (Outcome.failed, none) ∧
        (assemble sampleBlocks (finalState sampleInput).outcomes)[i]? =
          some (blockAt sampleBlocks i).rawText)) ∧
    (∀ s : String, showDownloadButton s = true ↔ s = "completed") ∧
    showDownloadButton (statusName (finalState sampleInput).status) = true :=
  c5_output_fidelity sampleInput sampleBlocks rfl

/-- C1: crashing after block `k` and resuming from the checkpoint produces a final
state — and assembled output — identical to the uninterrupted run; the resumed loop
processes exactly the blocks with no checkpoint record and never restarts a block
already checkpointed as resolved. -/
theorem c1_resume_idempotent (inp : JobInput) (blocks : List Block)
    (h : inp.extract = Except.ok blocks) (k : Nat) :
    resumeFromCrash inp blocks k = finalState inp ∧
    assemble blocks (resumeFromCrash inp blocks k).outcomes =
      assemble blocks (finalState inp).outcomes ∧
    (∀ i ∈ resumeIndices (checkpointUpTo inp blocks (min k blocks.length)) blocks.length,
      (checkpointUpTo inp blocks (min k blocks.length)).lookup i = none) ∧
    (∀ i, i < min k blocks.length →
      i ∉ resumeIndices (checkpointUpTo inp blocks (min k blocks.length)) blocks.length) := by
  have hkle : min k blocks.length ≤ blocks.length := Nat.min_le_right _ _
  have hfull : min k blocks.length + (blocks.length - min k blocks.length) =
      blocks.length := by omega
  have hfin : finalState inp = completedState inp blocks := by
    unfold finalState
    rw [h]
  have hres : resumeFromCrash inp blocks k = completedState inp blocks := by
    simp only [resumeFromCrash]
    rw [resumeIndices_checkpointUpTo, restoreState_eq inp blocks _ hkle,
      applyBlocks_loopState, hfull]
    rfl
  refine ⟨by rw [hres, hfin], by rw [hres, hfin], ?_, ?_⟩
  · intro i hi
    have hp := (List.mem_filter.1 hi).2
    simpa using hp
  · intro i hik
    rw [resumeIndices_checkpointUpTo]
    intro hmem
    obtain ⟨j, _, hij⟩ := List.mem_range'.1 hmem
    omega

/-- Witness for C1: crash after block 1 of the sample job. -/
theorem c1_witness :
    resumeFromCrash sampleInput sampleBlocks 1 = finalState sampleInput ∧
    assemble sampleBlocks (resumeFromCrash sampleInput sampleBlocks 1).outcomes =
      assemble sampleBlocks (finalState sampleInput).outcomes ∧
    (∀ i ∈ resumeIndices
        (checkpointUpTo sampleInput sampleBlocks (min 1 sampleBlocks.length))
        sampleBlocks.length,
      (checkpointUpTo sampleInput sampleBlocks (min 1 sampleBlocks.length)).lookup i =
        none) ∧
    (∀ i, i < min 1 sampleBlocks.length →
      i ∉ resumeIndices
        (checkpointUpTo sampleInput sampleBlocks (min 1 sampleBlocks.length))
        sampleBlocks.length) :=
  c1_resume_idempotent sampleInput sampleBlocks rfl 1

theorem forall_mem_traces (P : JobState → Prop)
    (hinit : P initState) (hext : P extractingState)
    (hfailed : ∀ e, P (failedState e))
    (hdet : ∀ blocks : List Block, P (detectingState blocks))
    (hloop : ∀ (inp : JobInput) (blocks : List Block) (m : Nat),
      m ≤ blocks.length → P (loopState inp blocks m))
    (hcomp : ∀ (inp : JobInput) (blocks : List Block), P (completedState inp blocks)) :
    (∀ inp : JobInput, ∀ st ∈ runTrace inp, P st) ∧
    (∀ (inp : JobInput) (blocks : List Block) (k : Nat),
      ∀ st ∈ crashResumeTrace inp blocks k, P st) := by
  constructor
  · intro inp st hst
    rcases mem_runTrace inp st hst with
      rfl | rfl | ⟨e, _, rfl⟩ | ⟨blocks, _, rfl | ⟨m, hm, rfl⟩ | rfl⟩
    · exact hinit
    · exact hext
    · exact hfailed e
    · exact hdet blocks
    · exact hloop inp blocks m hm
    · exact hcomp inp blocks
  · intro inp blocks k st hst
    rcases mem_crashResumeTrace inp blocks k st hst with
      rfl | rfl | rfl | ⟨m, hm, rfl⟩ | rfl
    · exact hinit
    · exact hext
    · exact hdet blocks
    · exact hloop inp blocks m hm
    · exact hcomp inp blocks

theorem counterInvariant_all :
    (∀ inp : JobInput, ∀ st ∈ runTrace inp, counterInvariant st) ∧
    (∀ (inp : JobInput) (blocks : List Block) (k : Nat),
      ∀ st ∈ crashResumeTrace inp blocks k, counterInvariant st) := by
  have hpart : ∀ st : JobState,
      processed_blocks st = blocks_skipped st + blocks_translated st + blocks_failed st :=
    fun st => countP_partition st.outcomes
  apply forall_mem_traces
  · exact ⟨hpart _, Nat.le_refl 0, fun hs => by cases hs⟩
  · exact ⟨hpart _, Nat.le_refl 0, fun hs => by cases hs⟩
  · intro e
    exact ⟨hpart _, Nat.le_refl 0, fun hs => by cases hs⟩
  · intro blocks
    refine ⟨hpart _, ?_, fun hs => by cases hs⟩
    have h0 : processed_blocks (detectingState blocks) = 0 :=
      countP_pendingOutcomes blocks.length _ (by decide)
    rw [h0]
    exact Nat.zero_le _
  · intro inp blocks m hm
    refine ⟨hpart _, ?_, ?_⟩
    · rw [loopState_eq inp blocks m hm]
      show (outcomesUpTo inp blocks m).countP _ ≤ totalN _
      calc (outcomesUpTo inp blocks m).countP _ ≤ (outcomesUpTo inp blocks m).length :=
            List.countP_le_length _
        _ = blocks.length := outcomesUpTo_length inp blocks m
        _ = totalN ⟨Status.translating, some blocks.length, outcomesUpTo inp blocks m,
              checkpointUpTo inp blocks m, none⟩ := rfl
    · intro hs
      rw [loopState_status inp blocks m] at hs
      cases hs
  · intro inp blocks
    have hproc : processed_blocks (completedState inp blocks) = blocks.length := by
      show (completedState inp blocks).outcomes.countP _ = blocks.length
      rw [completedState_outcomes]
      exact processed_outcomesUpTo_full inp blocks
    have htot : totalN (completedState inp blocks) = blocks.length := by
      rw [totalN, completedState_total]
      rfl
    refine ⟨hpart _, ?_, fun _ => ⟨by rw [hproc, htot], ?_⟩⟩
    · rw [hproc, htot]
    · rw [← hpart (completedState inp blocks), hproc, htot]

/-- C2: at every point in a job's life — including across crash and resume —
`processed_blocks` equals `blocks_skipped + blocks_translated + blocks_failed` and is
at most `total_blocks`; once the job is `completed`, `processed_blocks` equals
`total_blocks` and the three outcome counters sum to `total_blocks`. -/
theorem c2_counter_invariant (inp : JobInput) (blocks : List Block)
    (h : inp.extract = Except.ok blocks) (k : Nat) :
    (∀ inp' : JobInput, ∀ st ∈ runTrace inp', counterInvariant st) ∧
    (∀ st ∈ crashResumeTrace inp blocks k, counterInvariant st) :=
  ⟨counterInvariant_all.1, counterInvariant_all.2 inp blocks k⟩

/-- Witness for C2 at the concrete sample job with a crash after block 1. -/
theorem c2_witness :
    (∀ inp' : JobInput, ∀ st ∈ runTrace inp', counterInvariant st) ∧
    (∀ st ∈ crashResumeTrace sampleInput sampleBlocks 1, counterInvariant st) :=
  c2_counter_invariant sampleInput sampleBlocks rfl 1

theorem progressReported_all :
    (∀ inp : JobInput, ∀ st ∈ runTrace inp, progressReported st) ∧
    (∀ (inp : JobInput) (blocks : List Block) (k : Nat),
      ∀ st ∈ crashResumeTrace inp blocks k, progressReported st) := by
  apply forall_mem_traces
  · rintro (hq | hq)
    · exact absurd hq (by decide)
    · cases hq
  · intro _
    exact Or.inr ⟨rfl, rfl, rfl⟩
  · intro e
    rintro (hq | hq)
    · exact absurd hq (by
        show ¬ showProgressIndicator "failed" = true
        decide)
    · cases hq
  · intro blocks _
    exact Or.inl ⟨blocks.length, rfl, rfl⟩
  · intro inp blocks m _ _
    refine Or.inl ⟨blocks.length, loopState_total inp blocks m, ?_⟩
    rw [progress, loopState_total inp blocks m]
    rfl
  · intro inp blocks _
    refine Or.inl ⟨blocks.length, completedState_total inp blocks, ?_⟩
    rw [progress, completedState_total inp blocks]
    rfl

/-- C8 counterexample: in a concrete run, the job passes through the `extracting`
state; the document list renders the progress indicator for that status
(`DocumentUpload.tsx` line 225), yet `total_blocks` is not set there and the progress
computation is undefined — so progress is queried before `total_blocks` is ever set. -/
theorem c8_counterexample :
    extractingState ∈ runTrace sampleInput ∧
    showProgressIndicator (statusName extractingState.status) = true ∧
    extractingState.total_blocks = none ∧
    progress extractingState = none := by
  refine ⟨?_, by decide, rfl, rfl⟩
  unfold runTrace
  rw [show sampleInput.extract = Except.ok sampleBlocks from rfl]
  simp only [List.cons_append, List.nil_append]
  exact List.mem_cons_of_mem _ (List.mem_cons_self _ _)

/-- C8 (amended): reported progress equals `processed_blocks / total_blocks * 100`
truncated to an integer whenever `total_blocks` is set, which holds in every queried
state from the `detecting` stage on; but progress is not always defined when queried —
during `extracting` the indicator is already rendered while `total_blocks` is still
unset and the progress computation is undefined.  This holds in every state of every
run and of every crashed-and-resumed run. -/
theorem c8_amended_progress (inp : JobInput) (blocks : List Block)
    (h : inp.extract = Except.ok blocks) (k : Nat) :
    (∀ inp' : JobInput, ∀ st ∈ runTrace inp', progressReported st) ∧
    (∀ st ∈ crashResumeTrace inp blocks k, progressReported st) :=
  ⟨progressReported_all.1, progressReported_all.2 inp blocks k⟩

/-- Witness for the amended C8 at the concrete sample job with a crash after block 1. -/
theorem c8_witness :
    (∀ inp' : JobInput, ∀ st ∈ runTrace inp', progressReported st) ∧
    (∀ st ∈ crashResumeTrace sampleInput sampleBlocks 1, progressReported st) :=
  c8_amended_progress sampleInput sampleBlocks rfl 1

theorem chain'_runTrace (inp : JobInput) (R : JobState → JobState → Prop)
    (h1 : R initState extractingState)
    (h2 : ∀ e, R extractingState (failedState e))
    (h3 : ∀ blocks : List Block, R extractingState (detectingState blocks))
    (h4 : ∀ blocks : List Block, R (detectingState blocks) (loopState inp blocks 0))
    (h5 : ∀ (blocks : List Block) (m : Nat), m < blocks.length →
      R (loopState inp blocks m) (loopState inp blocks (m + 1)))
    (h6 : ∀ blocks : List Block,
      R (loopState inp blocks blocks.length) (completedState inp blocks)) :
    List.Chain' R (runTrace inp) := by
  unfold runTrace
  cases hex : inp.extract with
  | error e =>
    simp only [List.cons_append, List.nil_append]
    exact List.chain'_cons.2 ⟨h1, List.chain'_cons.2 ⟨h2 e, List.chain'_singleton _⟩⟩
  | ok blocks =>
    simp only [List.cons_append, List.nil_append]
    refine List.chain'_cons.2 ⟨h1, List.chain'_cons.2 ⟨h3 blocks, ?_⟩⟩
    refine List.chain'_cons'.2 ⟨?_, ?_⟩
    · intro y hy
      rw [head?_map_range_append] at hy
      simp only [Option.mem_def, Option.some.injEq] at hy
      subst hy
      exact h4 blocks
    · refine List.chain'_append.2
        ⟨chain'_map_range R _ blocks.length (h5 blocks), List.chain'_singleton _, ?_⟩
      intro x hx y hy
      rw [getLast?_map_range] at hx
      simp only [Option.mem_def, Option.some.injEq, List.head?_cons] at hx hy
      subst hx
      subst hy
      exact h6 blocks

theorem chain'_crashResumeTrace (inp : JobInput) (blocks : List Block) (k : Nat)
    (R : JobState → JobState → Prop)
    (hrefl : ∀ s, R s s)
    (h1 : R initState extractingState)
    (h3 : R extractingState (detectingState blocks))
    (h4 : R (detectingState blocks) (loopState inp blocks 0))
    (h5 : ∀ m : Nat, m < blocks.length →
      R (loopState inp blocks m) (loopState inp blocks (m + 1)))
    (h6 : R (loopState inp blocks blocks.length) (completedState inp blocks)) :
    List.Chain' R (crashResumeTrace inp blocks k) := by
  have hkle : min k blocks.length ≤ blocks.length := Nat.min_le_right _ _
  have hfull : min k blocks.length + (blocks.length - min k blocks.length) =
      blocks.length := by omega
  rw [crashResumeTrace_eq]
  simp only [List.cons_append, List.nil_append, List.append_assoc]
  refine List.chain'_cons.2 ⟨h1, List.chain'_cons.2 ⟨h3, ?_⟩⟩
  refine List.chain'_cons'.2 ⟨?_, ?_⟩
  · intro y hy
    rw [head?_map_range_append] at hy
    simp only [Option.mem_def, Option.some.injEq] at hy
    subst hy
    exact h4
  · refine List.chain'_append.2 ⟨?_, ?_, ?_⟩
    · refine chain'_map_range R _ (min k blocks.length) ?_
      intro m hm
      exact h5 m (by omega)
    · refine List.chain'_append.2 ⟨?_, List.chain'_singleton _, ?_⟩
      · refine chain'_map_range R _ (blocks.length - min k blocks.length) ?_
        intro j hj
        rw [Nat.min_eq_left (Nat.le_of_lt hj), Nat.min_eq_left hj]
        exact h5 (min k blocks.length + j) (by omega)
      · intro x hx y hy
        rw [getLast?_map_range] at hx
        simp only [Option.mem_def, Option.some.injEq, List.head?_cons] at hx hy
        subst hx
        subst hy
        rw [Nat.min_self, hfull]
        exact h6
    · intro x hx y hy
      rw [getLast?_map_range] at hx
      rw [head?_map_range_append] at hy
      simp only [Option.mem_def, Option.some.injEq] at hx hy
      subst hx
      subst hy
      rw [Nat.zero_min, Nat.add_zero]
      exact hrefl _

theorem countersLe_refl (s : JobState) : countersLe s s :=
  ⟨Nat.le_refl _, Nat.le_refl _, Nat.le_refl _, Nat.le_refl _, Nat.le_refl _, Nat.le_refl _⟩

theorem countersLe_of_fields (s s' : JobState) (ho : s.outcomes = s'.outcomes)
    (ht : s.total_blocks = s'.total_blocks) : countersLe s s' := by
  have hp : processed_blocks s = processed_blocks s' := by
    unfold processed_blocks
    rw [ho]
  have hsk : blocks_skipped s = blocks_skipped s' := by
    unfold blocks_skipped countOutcome
    rw [ho]
  have htr : blocks_translated s = blocks_translated s' := by
    unfold blocks_translated countOutcome
    rw [ho]
  have hf : blocks_failed s = blocks_failed s' := by
    unfold blocks_failed countOutcome
    rw [ho]
  have htot : totalN s = totalN s' := by
    unfold totalN
    rw [ht]
  have hpr : progressN s = progressN s' := by
    unfold progressN progress
    rw [ht, hp]
  exact ⟨htot.le, hp.le, hsk.le, htr.le, hf.le, hpr.le⟩

theorem countersLe_of_zero (s s' : JobState) (ho : s.outcomes = [])
    (ht : s.total_blocks = none) : countersLe s s' := by
  unfold countersLe totalN processed_blocks blocks_skipped blocks_translated
    blocks_failed countOutcome progressN progress
  rw [ho, ht]
  simp

theorem countersLe_loop_step (inp : JobInput) (blocks : List Block) (m : Nat)
    (hm : m < blocks.length) :
    countersLe (loopState inp blocks m) (loopState inp blocks (m + 1)) := by
  rw [loopState_eq inp blocks m (Nat.le_of_lt hm), loopState_eq inp blocks (m + 1) hm]
  have hproc := countP_outcomesUpTo_mono inp blocks m
    (fun p => !(decide (p.1 = Outcome.pending))) (by decide)
  have hskip := countP_outcomesUpTo_mono inp blocks m
    (fun p => decide (p.1 = Outcome.skipped)) (by decide)
  have htr := countP_outcomesUpTo_mono inp blocks m
    (fun p => decide (p.1 = Outcome.translated)) (by decide)
  have hfl := countP_outcomesUpTo_mono inp blocks m
    (fun p => decide (p.1 = Outcome.failed)) (by decide)
  refine ⟨Nat.le_refl _, hproc, hskip, htr, hfl, ?_⟩
  show ((some blocks.length).map
      (fun t => (outcomesUpTo inp blocks m).countP _ * 100 / t)).getD 0 ≤
    ((some blocks.length).map
      (fun t => (outcomesUpTo inp blocks (m + 1)).countP _ * 100 / t)).getD 0
  simpa using Nat.div_le_div_right (Nat.mul_le_mul_right 100 hproc)

/-- C9: all derived counters (`total_blocks`, `processed_blocks`, `blocks_skipped`,
`blocks_translated`, `blocks_failed`) and progress are monotonically non-decreasing
across every step of a job's life, including across a crash and resume. -/
theorem c9_monotonic_progress (inp : JobInput) (blocks : List Block)
    (h : inp.extract = Except.ok blocks) (k : Nat) :
    (∀ inp' : JobInput, List.Chain' countersLe (runTrace inp')) ∧
    List.Chain' countersLe (crashResumeTrace inp blocks k) := by
  constructor
  · intro inp'
    refine chain'_runTrace inp' countersLe ?_ ?_ ?_ ?_ ?_ ?_
    · exact countersLe_of_zero _ _ rfl rfl
    · intro e
      exact countersLe_of_zero _ _ rfl rfl
    · intro bs
      exact countersLe_of_zero _ _ rfl rfl
    · intro bs
      exact countersLe_of_fields _ _ rfl rfl
    · intro bs m hm
      exact countersLe_loop_step inp' bs m hm
    · intro bs
      exact countersLe_of_fields _ _ rfl rfl
  · refine chain'_crashResumeTrace inp blocks k countersLe countersLe_refl ?_ ?_ ?_ ?_ ?_
    · exact countersLe_of_zero _ _ rfl rfl
    · exact countersLe_of_zero _ _ rfl rfl
    · exact countersLe_of_fields _ _ rfl rfl
    · intro m hm
      exact countersLe_loop_step inp blocks m hm
    · exact countersLe_of_fields _ _ rfl rfl

/-- Witness for C9 at the concrete sample job with a crash after block 1. -/
theorem c9_witness :
    (∀ inp' : JobInput, List.Chain' countersLe (runTrace inp')) ∧
    List.Chain' countersLe (crashResumeTrace sampleInput sampleBlocks 1) :=
  c9_monotonic_progress sampleInput sampleBlocks rfl 1

/-- C7 counterexample: the run of a concrete job passes through a state whose status
renders as `detecting` — a status that is a `statusColors` key in the code but not one
of the six names the claim lists; the claimed name `classifying` is no status of the
code at all. -/
theorem c7_counterexample :
    detectingState sampleBlocks ∈ runTrace sampleInput ∧
    statusName (detectingState sampleBlocks).status = "detecting" ∧
    "detecting" ∉ claimedStatusNames ∧
    "detecting" ∈ statusColorKeys ∧
    "classifying" ∉ statusColorKeys := by
  refine ⟨?_, rfl, by decide, by decide, by decide⟩
  unfold runTrace
  rw [show sampleInput.extract = Except.ok sampleBlocks from rfl]
  simp only [List.cons_append, List.nil_append]
  exact List.mem_cons_of_mem _ (List.mem_cons_of_mem _ (List.mem_cons_self _ _))

/-- C7 (amended): a job's status is always one of pending, extracting, detecting,
translating, completed, failed — the six `statusColors` keys — and every status change
along a run (also a resumed run) follows pending → extracting → detecting →
translating → completed, with failures branching to `failed`. -/
theorem c7_amended_status_machine (inp : JobInput) (blocks : List Block)
    (h : inp.extract = Except.ok blocks) (k : Nat) :
    (∀ inp' : JobInput, List.Chain' statusStep (runTrace inp')) ∧
    List.Chain' statusStep (crashResumeTrace inp blocks k) ∧
    (∀ s : Status, statusName s ∈ statusColorKeys) := by
  refine ⟨?_, ?_, by intro s; cases s <;> decide⟩
  · intro inp'
    refine chain'_runTrace inp' statusStep ?_ ?_ ?_ ?_ ?_ ?_
    · exact Or.inr (Or.inl ⟨rfl, rfl⟩)
    · intro e
      exact Or.inr (Or.inr (Or.inr (Or.inr (Or.inr (Or.inl ⟨rfl, rfl⟩)))))
    · intro bs
      exact Or.inr (Or.inr (Or.inl ⟨rfl, rfl⟩))
    · intro bs
      unfold statusStep
      rw [loopState_status]
      exact Or.inr (Or.inr (Or.inr (Or.inl ⟨rfl, rfl⟩)))
    · intro bs m _
      unfold statusStep
      rw [loopState_status, loopState_status]
      exact Or.inl rfl
    · intro bs
      unfold statusStep
      rw [loopState_status]
      exact Or.inr (Or.inr (Or.inr (Or.inr (Or.inl ⟨rfl, rfl⟩))))
  · refine chain'_crashResumeTrace inp blocks k statusStep
      (fun s => Or.inl rfl) ?_ ?_ ?_ ?_ ?_
    · exact Or.inr (Or.inl ⟨rfl, rfl⟩)
    · exact Or.inr (Or.inr (Or.inl ⟨rfl, rfl⟩))
    · unfold statusStep
      rw [loopState_status]
      exact Or.inr (Or.inr (Or.inr (Or.inl ⟨rfl, rfl⟩)))
    · intro m _
      unfold statusStep
      rw [loopState_status, loopState_status]
      exact Or.inl rfl
    · unfold statusStep
      rw [loopState_status]
      exact Or.inr (Or.inr (Or.inr (Or.inr (Or.inl ⟨rfl, rfl⟩))))

/-- Witness for the amended C7 at the concrete sample job with a crash after block 1. -/
theorem c7_witness :
    (∀ inp' : JobInput, List.Chain' statusStep (runTrace inp')) ∧
    List.Chain' statusStep (crashResumeTrace sampleInput sampleBlocks 1) ∧
    (∀ s : Status, statusName s ∈ statusColorKeys) :=
  c7_amended_status_machine sampleInput sampleBlocks rfl 1

end LmsiloTranslate
